import Mathlib

/-!
Verification development for the ingestion-and-modeling pipeline
(modules/data_processing.py and modules/modeling.py).

Tables are embedded as a list of column names plus a list of rows, each row a
list of cells; a cell is an optional scalar value, with none standing for a
missing value (NaN). The pipeline functions are translated line by line from
the Python source; pandas and sklearn library calls are given their documented
semantics, noted at each definition.
-/

/-- A scalar value held in a table cell: an integer or a string. -/
inductive Val where
  | int : Int → Val
  | str : String → Val
deriving DecidableEq, Repr

/-- A table cell; none models a missing value (NaN). -/
abbrev Cell := Option Val

/-- A pandas DataFrame: named columns and rows of cells.
Well-formed tables have every row of length cols.length. -/
structure Table where
  cols : List String
  rows : List (List Cell)
deriving DecidableEq, Repr

/-- Well-formedness: each row has exactly one cell per column. -/
def Table.WF (t : Table) : Prop :=
  ∀ r ∈ t.rows, r.length = t.cols.length

instance (t : Table) : Decidable t.WF := by
  unfold Table.WF; infer_instance

/-- The empty DataFrame returned by the error paths of load_and_merge_data. -/
def emptyTable : Table := ⟨[], []⟩

/-- Cell of row i, column index j (none out of bounds, as for a missing value). -/
def cellAt (t : Table) (i j : Nat) : Cell :=
  (t.rows.getD i []).getD j none

/-- Index of the first column with the given name, as pandas column lookup. -/
def colIdx : List String → String → Option Nat
  | [], _ => none
  | c :: cs, d => if c = d then some 0 else (colIdx cs d).map (· + 1)

/-- Python str() of a cell, as produced by the astype(str) conversion in
data_processing.py lines 66 to 69: a missing value (NaN) prints as "nan". -/
def cellToStr : Cell → String
  | none => "nan"
  | some (.int n) => toString n
  | some (.str s) => s

/-- The canonical string form a key cell takes after astype(str). -/
def normCell (c : Cell) : Cell := some (.str (cellToStr c))

/-- One iteration of the astype(str) loop: df[col] = df[col].astype(str).
A missing column raises a KeyError naming the column, modelled as error. -/
def astypeStrCol (t : Table) (c : String) : Except String Table :=
  match colIdx t.cols c with
  | none => .error c
  | some i => .ok ⟨t.cols, t.rows.map fun r => r.set i (normCell (r.getD i none))⟩

/-- The full astype(str) loop over a list of key columns
(data_processing.py lines 66 to 69). -/
def normalizeKeys (t : Table) : List String → Except String Table
  | [] => .ok t
  | c :: cs =>
    match astypeStrCol t c with
    | .error e => .error e
    | .ok t1 => normalizeKeys t1 cs

/-- Concatenation of a list of lists (used to express the join row set). -/
def catLists : List (List α) → List α
  | [] => []
  | l :: ls => l ++ catLists ls

/-- The tuple of key cells of a row, in key-column order; a key column name
absent from the table reads as a missing cell. -/
def keyCells (t : Table) (ks : List String) (r : List Cell) : List Cell :=
  ks.map fun c =>
    match colIdx t.cols c with
    | some i => r.getD i none
    | none => none

/-- pandas equality on key cells: missing values match nothing, not even
another missing value. -/
def cellMatch : Cell → Cell → Bool
  | some a, some b => decide (a = b)
  | _, _ => false

/-- Whether a left row and a right row agree on every composite-key pair. -/
def keyMatch (tl tr : Table) (lk rk : List String) (rl rr : List Cell) : Bool :=
  ((keyCells tl lk rl).zip (keyCells tr rk rr)).all fun p => cellMatch p.1 p.2

/-- pd.merge(df_main, df_gt, left_on, right_on, how=inner)
(data_processing.py line 73): every pair of rows agreeing on the composite key
contributes one output row, left columns then right columns, left row order
preserved and right row order preserved within a left row. -/
def mergeInner (tl tr : Table) (lk rk : List String) : Table :=
  ⟨tl.cols ++ tr.cols,
   catLists (tl.rows.map fun rl =>
     ((tr.rows.filter fun rr => keyMatch tl tr lk rk rl rr).map fun rr => rl ++ rr))⟩

/-- Stated from the spec wording: the number of matching key-tuple pairs,
counting every (left row, right row) pair whose normalized keys agree, so that
duplicate keys on either side count once per pair (cross-product semantics). -/
def matchingPairCount (tl tr : Table) (lk rk : List String) : Nat :=
  ((catLists (tl.rows.map fun rl => tr.rows.map fun rr => (rl, rr))).filter
    fun p => keyMatch tl tr lk rk p.1 p.2).length

/-- The Record Linkage steps of load_and_merge_data (lines 62 to 73):
astype(str) on the main-table key columns, then on the ground-truth key
columns, then the inner merge. -/
def normalizeAndMerge (dfMain dfGt : Table) (lk rk : List String) : Except String Table :=
  match normalizeKeys dfMain lk with
  | .error c => .error c
  | .ok nm =>
    match normalizeKeys dfGt rk with
    | .error c => .error c
    | .ok ng => .ok (mergeInner nm ng lk rk)

/-- The hard-coded composite key of the main table (line 62). -/
def mergeColumnsMain : List String := ["srcip", "sport", "dstip", "dsport", "proto"]

/-- The hard-coded composite key of the ground-truth table (line 63). -/
def mergeColumnsGt : List String :=
  ["Source IP", "Source Port", "Destination IP", "Destination Port", "Protocol"]

/-- Rows of drop_duplicates, with seen holding the rows already emitted. -/
def dedupRowsAux (seen : List (List Cell)) : List (List Cell) → List (List Cell)
  | [] => []
  | r :: rs =>
    if r ∈ seen then dedupRowsAux seen rs
    else r :: dedupRowsAux (r :: seen) rs

/-- df.drop_duplicates() (line 77): keep the first occurrence of each fully
identical row, preserving order; pandas treats two NaN cells as equal here. -/
def dedupRows (l : List (List Cell)) : List (List Cell) :=
  dedupRowsAux [] l

def Table.dedup (t : Table) : Table := ⟨t.cols, dedupRows t.rows⟩

/-- One cell of the forward fill: a present value stays, a missing one takes
the value carried down from the rows above. -/
def fillCell (prev c : Cell) : Cell :=
  match c with
  | some v => some v
  | none => prev

/-- df.fillna(method=ffill) (line 78) row by row: prev carries, per column,
the most recent non-missing value seen so far. -/
def ffillRows (prev : List Cell) : List (List Cell) → List (List Cell)
  | [] => []
  | r :: rs =>
    let r1 := List.zipWith fillCell prev r
    r1 :: ffillRows r1 rs

def Table.ffill (t : Table) : Table :=
  ⟨t.cols, ffillRows (t.cols.map fun _ => none) t.rows⟩

/-- The Cleaning and Imputation Stage (lines 77 to 78): drop_duplicates, then
forward fill. -/
def cleanTable (t : Table) : Table := t.dedup.ffill

/-- The most recent non-missing value strictly before position i of a column
(none when every earlier entry is missing). -/
def lastFillBefore (cs : List Cell) (i : Nat) : Cell :=
  (cs.take i).foldl fillCell none

/-- Column j of a table as a list of cells in row order. -/
def colCells (t : Table) (j : Nat) : List Cell :=
  t.rows.map fun r => r.getD j none

/-! ### List and column-lookup lemmas -/

theorem length_catLists (ls : List (List α)) :
    (catLists ls).length = (ls.map List.length).sum := by
  induction ls with
  | nil => rfl
  | cons l ls ih => simp [catLists, ih]

theorem mem_catLists_map {a : α} {l : List α} (g : α → List β) {x : β}
    (ha : a ∈ l) (hx : x ∈ g a) : x ∈ catLists (l.map g) := by
  induction l with
  | nil => cases ha
  | cons b l ih =>
    rcases List.mem_cons.mp ha with h | h
    · subst h; exact List.mem_append.mpr (.inl hx)
    · exact List.mem_append.mpr (.inr (ih h))

theorem colIdx_of_mem {cs : List String} {c : String} (h : c ∈ cs) :
    ∃ i, colIdx cs c = some i := by
  induction cs with
  | nil => cases h
  | cons a as ih =>
    by_cases hac : a = c
    · exact ⟨0, by simp [colIdx, hac]⟩
    · rcases List.mem_cons.mp h with h1 | h1
      · exact absurd h1.symm hac
      · obtain ⟨i, hi⟩ := ih h1
        exact ⟨i + 1, by simp [colIdx, hac, hi]⟩

theorem colIdx_eq_none_of_not_mem {cs : List String} {c : String} (h : c ∉ cs) :
    colIdx cs c = none := by
  induction cs with
  | nil => rfl
  | cons a as ih =>
    have h1 : a ≠ c := fun e => h (e ▸ List.mem_cons_self a as)
    have h2 : c ∉ as := fun e => h (List.mem_cons_of_mem _ e)
    simp [colIdx, h1, ih h2]

theorem colIdx_lt_length : ∀ {cs : List String} {c : String} {i : Nat},
    colIdx cs c = some i → i < cs.length := by
  intro cs
  induction cs with
  | nil => intro c i h; simp [colIdx] at h
  | cons a as ih =>
    intro c i h
    by_cases hac : a = c
    · simp [colIdx, hac] at h
      simp only [List.length_cons]
      omega
    · simp [colIdx, hac] at h
      obtain ⟨j, hj, rfl⟩ := h
      have := ih hj
      simp only [List.length_cons]
      omega

theorem colIdx_getD : ∀ {cs : List String} {c : String} {i : Nat},
    colIdx cs c = some i → cs.getD i "" = c := by
  intro cs
  induction cs with
  | nil => intro c i h; simp [colIdx] at h
  | cons a as ih =>
    intro c i h
    by_cases hac : a = c
    · simp [colIdx, hac] at h
      subst h
      simpa using hac
    · simp [colIdx, hac] at h
      obtain ⟨j, hj, rfl⟩ := h
      simpa using ih hj

/-! ### Key normalization: the astype(str) loop -/

theorem normalizeKeys_ok_of_all_mem : ∀ (ks : List String) (t : Table),
    (∀ c ∈ ks, c ∈ t.cols) →
    ∃ t1, normalizeKeys t ks = .ok t1 ∧ t1.cols = t.cols ∧
      t1.rows.length = t.rows.length := by
  intro ks
  induction ks with
  | nil => intro t _; exact ⟨t, rfl, rfl, rfl⟩
  | cons c cs ih =>
    intro t h
    have hc : c ∈ t.cols := h c (List.mem_cons_self c cs)
    obtain ⟨i, hi⟩ := colIdx_of_mem hc
    have hstep : astypeStrCol t c =
        .ok ⟨t.cols, t.rows.map fun r => r.set i (normCell (r.getD i none))⟩ := by
      unfold astypeStrCol
      rw [hi]
    obtain ⟨t1, h1, hcols, hlen⟩ :=
      ih ⟨t.cols, t.rows.map fun r => r.set i (normCell (r.getD i none))⟩
        (fun d hd => h d (List.mem_cons_of_mem _ hd))
    refine ⟨t1, ?_, hcols, ?_⟩
    · simp only [normalizeKeys, hstep]
      exact h1
    · simpa using hlen

theorem normalizeKeys_error_of_missing : ∀ (ks : List String) (t : Table),
    (¬ ∀ c ∈ ks, c ∈ t.cols) →
    ∃ c, normalizeKeys t ks = .error c ∧ c ∈ ks ∧ c ∉ t.cols := by
  intro ks
  induction ks with
  | nil => intro t h; exact absurd (by simp) h
  | cons c cs ih =>
    intro t h
    by_cases hc : c ∈ t.cols
    · obtain ⟨i, hi⟩ := colIdx_of_mem hc
      have hstep : astypeStrCol t c =
          .ok ⟨t.cols, t.rows.map fun r => r.set i (normCell (r.getD i none))⟩ := by
        unfold astypeStrCol
        rw [hi]
      have h2 : ¬ ∀ d ∈ cs,
          d ∈ (Table.mk t.cols (t.rows.map fun r => r.set i (normCell (r.getD i none)))).cols := by
        intro hall
        exact h fun d hd => by
          rcases List.mem_cons.mp hd with h1 | h1
          · exact h1 ▸ hc
          · exact hall d h1
      obtain ⟨d, hd, hmem, hnot⟩ := ih _ h2
      refine ⟨d, ?_, List.mem_cons_of_mem _ hmem, hnot⟩
      simp only [normalizeKeys, hstep]
      exact hd
    · have hnone : colIdx t.cols c = none := colIdx_eq_none_of_not_mem hc
      refine ⟨c, ?_, List.mem_cons_self c cs, hc⟩
      simp [normalizeKeys, astypeStrCol, hnone]

/-! ### Join row count -/

theorem mergeInner_rows_length (tl tr : Table) (lk rk : List String) :
    (mergeInner tl tr lk rk).rows.length = matchingPairCount tl tr lk rk := by
  unfold mergeInner matchingPairCount
  induction tl.rows with
  | nil => rfl
  | cons rl ls ih =>
    simp only [List.map_cons, catLists, List.filter_append, List.length_append, ih,
      List.length_map, List.filter_map]
    rfl

/-! ### Claims C1, C2, C3: the Record Linkage Engine -/

/-- C1: for every pair of flow and ground-truth tables in which all
composite-key columns exist, the Record Linkage Engine first normalizes every
key column on both sides to a canonical string form and then performs an inner
equi-join on the tuple of normalized key columns; the output row count equals
the number of matching normalized key-tuple pairs (duplicate keys on either
side produce the cross-product of matches), and the output is empty when no
keys match. -/
theorem record_linkage_row_count (dfMain dfGt : Table) (lk rk : List String)
    (hM : ∀ c ∈ lk, c ∈ dfMain.cols) (hG : ∀ c ∈ rk, c ∈ dfGt.cols) :
    ∃ nm ng, normalizeKeys dfMain lk = .ok nm ∧ normalizeKeys dfGt rk = .ok ng ∧
      normalizeAndMerge dfMain dfGt lk rk = .ok (mergeInner nm ng lk rk) ∧
      (mergeInner nm ng lk rk).rows.length = matchingPairCount nm ng lk rk ∧
      (matchingPairCount nm ng lk rk = 0 → (mergeInner nm ng lk rk).rows = []) := by
  obtain ⟨nm, hnm, hc1, hl1⟩ := normalizeKeys_ok_of_all_mem lk dfMain hM
  obtain ⟨ng, hng, hc2, hl2⟩ := normalizeKeys_ok_of_all_mem rk dfGt hG
  refine ⟨nm, ng, hnm, hng, ?_, mergeInner_rows_length nm ng lk rk, ?_⟩
  · unfold normalizeAndMerge
    rw [hnm, hng]
  · intro h0
    have h1 := mergeInner_rows_length nm ng lk rk
    rw [h0] at h1
    exact List.length_eq_zero.mp h1

/-- Witness for C1 at a one-row pair whose keys agree only after string
normalization (integer 7 against the text "7"). -/
theorem record_linkage_row_count_witness :
    ∃ nm ng,
      normalizeKeys ⟨["a"], [[some (.int 7)]]⟩ ["a"] = .ok nm ∧
      normalizeKeys ⟨["b"], [[some (.str "7")]]⟩ ["b"] = .ok ng ∧
      normalizeAndMerge ⟨["a"], [[some (.int 7)]]⟩ ⟨["b"], [[some (.str "7")]]⟩
        ["a"] ["b"] = .ok (mergeInner nm ng ["a"] ["b"]) ∧
      (mergeInner nm ng ["a"] ["b"]).rows.length = matchingPairCount nm ng ["a"] ["b"] ∧
      (matchingPairCount nm ng ["a"] ["b"] = 0 → (mergeInner nm ng ["a"] ["b"]).rows = []) :=
  record_linkage_row_count _ _ _ _ (by decide) (by decide)

/-- The raw table of the spec scenario: rows (k 1, v 10) and (k 2, v missing). -/
def rawScenario : Table :=
  ⟨["k", "v"], [[some (.str "1"), some (.str "10")], [some (.str "2"), none]]⟩

/-- The ground-truth table of the spec scenario. -/
def gtScenario : Table :=
  ⟨["K", "label"],
   [[some (.str "1"), some (.str "benign")], [some (.str "2"), some (.str "attack")]]⟩

/-- C2: joining the scenario raw table against the scenario ground truth on
the single-pair composite key k to K yields exactly two merged rows, each
retaining its original v value, including the missing v of the second row,
together with the matched label. -/
theorem scenario_join_two_rows :
    normalizeAndMerge rawScenario gtScenario ["k"] ["K"] =
      .ok ⟨["k", "v", "K", "label"],
        [[some (.str "1"), some (.str "10"), some (.str "1"), some (.str "benign")],
         [some (.str "2"), none, some (.str "2"), some (.str "attack")]]⟩ := by
  rfl

/-- C3: when some composite-key column is absent from its table, the Record
Linkage Engine fails with an error naming a missing key column (the KeyError
raised by the astype loop, the SchemaError of the spec taxonomy) before
attempting any join: no merged table is produced. -/
theorem record_linkage_missing_column (dfMain dfGt : Table) (lk rk : List String)
    (h : ¬ ((∀ c ∈ lk, c ∈ dfMain.cols) ∧ (∀ c ∈ rk, c ∈ dfGt.cols))) :
    ∃ c, normalizeAndMerge dfMain dfGt lk rk = .error c ∧
      ((c ∈ lk ∧ c ∉ dfMain.cols) ∨ (c ∈ rk ∧ c ∉ dfGt.cols)) := by
  by_cases hM : ∀ c ∈ lk, c ∈ dfMain.cols
  · have hG : ¬ ∀ c ∈ rk, c ∈ dfGt.cols := fun hg => h ⟨hM, hg⟩
    obtain ⟨nm, hnm, hcols, hlen⟩ := normalizeKeys_ok_of_all_mem lk dfMain hM
    obtain ⟨c, hc, hmem, hnot⟩ := normalizeKeys_error_of_missing rk dfGt hG
    refine ⟨c, ?_, .inr ⟨hmem, hnot⟩⟩
    unfold normalizeAndMerge
    rw [hnm, hc]
  · obtain ⟨c, hc, hmem, hnot⟩ := normalizeKeys_error_of_missing lk dfMain hM
    refine ⟨c, ?_, .inl ⟨hmem, hnot⟩⟩
    unfold normalizeAndMerge
    rw [hc]

/-- Witness for C3: a main table having only the srcip key column, joined on
the five hard-coded key columns, fails naming a missing one. -/
theorem record_linkage_missing_column_witness :
    ∃ c, normalizeAndMerge ⟨["srcip"], []⟩ gtScenario mergeColumnsMain mergeColumnsGt
        = .error c ∧
      ((c ∈ mergeColumnsMain ∧ c ∉ (Table.mk ["srcip"] []).cols) ∨
       (c ∈ mergeColumnsGt ∧ c ∉ gtScenario.cols)) :=
  record_linkage_missing_column _ _ _ _ (by decide)

/-! ### Duplicate removal -/

theorem dedupRowsAux_sublist : ∀ (l seen : List (List Cell)),
    List.Sublist (dedupRowsAux seen l) l := by
  intro l
  induction l with
  | nil => intro seen; simp [dedupRowsAux]
  | cons r rs ih =>
    intro seen
    by_cases h : r ∈ seen
    · simp only [dedupRowsAux, if_pos h]
      exact (ih seen).cons r
    · simp only [dedupRowsAux, if_neg h]
      exact (ih (r :: seen)).cons₂ r

theorem dedupRows_sublist (l : List (List Cell)) : List.Sublist (dedupRows l) l :=
  dedupRowsAux_sublist l []

theorem dedupRowsAux_nodup : ∀ (l seen : List (List Cell)),
    (dedupRowsAux seen l).Nodup ∧ ∀ x ∈ dedupRowsAux seen l, x ∉ seen := by
  intro l
  induction l with
  | nil => intro seen; simp [dedupRowsAux]
  | cons r rs ih =>
    intro seen
    by_cases h : r ∈ seen
    · simpa only [dedupRowsAux, if_pos h] using ih seen
    · obtain ⟨h1, h2⟩ := ih (r :: seen)
      simp only [dedupRowsAux, if_neg h]
      refine ⟨List.nodup_cons.mpr ⟨?_, h1⟩, ?_⟩
      · exact fun hmem => (h2 r hmem) (List.mem_cons_self r seen)
      · intro x hx
        rcases List.mem_cons.mp hx with h3 | h3
        · exact h3 ▸ h
        · exact fun hs => (h2 x h3) (List.mem_cons_of_mem _ hs)

theorem dedupRows_nodup (l : List (List Cell)) : (dedupRows l).Nodup :=
  (dedupRowsAux_nodup l []).1

theorem dedupRowsAux_eq_self : ∀ (l seen : List (List Cell)), l.Nodup →
    (∀ x ∈ l, x ∉ seen) → dedupRowsAux seen l = l := by
  intro l
  induction l with
  | nil => intro seen _ _; rfl
  | cons r rs ih =>
    intro seen hnd hdis
    obtain ⟨hr, hrs⟩ := List.nodup_cons.mp hnd
    have h : r ∉ seen := hdis r (List.mem_cons_self r rs)
    simp only [dedupRowsAux, if_neg h]
    rw [ih (r :: seen) hrs]
    intro x hx
    intro hmem
    rcases List.mem_cons.mp hmem with h3 | h3
    · exact hr (h3 ▸ hx)
    · exact hdis x (List.mem_cons_of_mem _ hx) h3

theorem dedupRows_idem (l : List (List Cell)) : dedupRows (dedupRows l) = dedupRows l :=
  dedupRowsAux_eq_self _ [] (dedupRows_nodup l) (by simp)

/-! ### Forward fill -/

theorem zipWith_fillCell_idem : ∀ p r : List Cell,
    List.zipWith fillCell p (List.zipWith fillCell p r) = List.zipWith fillCell p r := by
  intro p
  induction p with
  | nil => intro r; rfl
  | cons pc p ih =>
    intro r
    cases r with
    | nil => rfl
    | cons rc r =>
      have hc : fillCell pc (fillCell pc rc) = fillCell pc rc := by
        cases rc with
        | some v => rfl
        | none => cases pc with | some w => rfl | none => rfl
      simp [List.zipWith_cons_cons, hc, ih]

theorem ffillRows_idem : ∀ (rs : List (List Cell)) (p : List Cell),
    ffillRows p (ffillRows p rs) = ffillRows p rs := by
  intro rs
  induction rs with
  | nil => intro p; rfl
  | cons r rs ih =>
    intro p
    simp only [ffillRows]
    rw [zipWith_fillCell_idem, ih]

theorem dedup_idem (t : Table) : t.dedup.dedup = t.dedup := by
  unfold Table.dedup
  simp [dedupRows_idem]

theorem ffill_idem (t : Table) : t.ffill.ffill = t.ffill := by
  unfold Table.ffill
  simp [ffillRows_idem]

theorem zipWith_fillCell_of_complete : ∀ p r : List Cell, r.length ≤ p.length →
    (∀ c ∈ r, c ≠ none) → List.zipWith fillCell p r = r := by
  intro p
  induction p with
  | nil =>
    intro r h1 _
    have : r = [] := List.eq_nil_of_length_eq_zero (Nat.le_zero.mp h1)
    subst this
    rfl
  | cons pc p ih =>
    intro r h1 h2
    cases r with
    | nil => rfl
    | cons rc r =>
      have hrc : rc ≠ none := h2 rc (List.mem_cons_self rc r)
      have hfc : fillCell pc rc = rc := by
        cases rc with
        | some v => rfl
        | none => exact absurd rfl hrc
      have hlen : r.length ≤ p.length := by simpa using h1
      simp [List.zipWith_cons_cons, hfc,
        ih r hlen (fun c hc => h2 c (List.mem_cons_of_mem _ hc))]

theorem ffillRows_of_complete (n : Nat) : ∀ (rs : List (List Cell)) (p : List Cell),
    n ≤ p.length → (∀ r ∈ rs, r.length = n) →
    (∀ r ∈ rs, ∀ c ∈ r, c ≠ none) → ffillRows p rs = rs := by
  intro rs
  induction rs with
  | nil => intro p _ _ _; rfl
  | cons r rs ih =>
    intro p hp hlen hc
    have hr : r.length = n := hlen r (List.mem_cons_self r rs)
    have h1 : List.zipWith fillCell p r = r :=
      zipWith_fillCell_of_complete p r (hr ▸ hp) (hc r (List.mem_cons_self r rs))
    simp only [ffillRows, h1]
    rw [ih r (le_of_eq hr.symm)
      (fun x hx => hlen x (List.mem_cons_of_mem _ hx))
      (fun x hx => hc x (List.mem_cons_of_mem _ hx))]

/-! ### Claim C4: idempotence of the Cleaning and Imputation Stage -/

/-- C4 counterexample: the Cleaning and Imputation Stage is not idempotent.
On the one-column table with rows (1) and (missing), forward-fill turns the
second row into a duplicate of the first, and a second application of the
stage removes it, so clean(clean T) has one row while clean T has two. -/
theorem cleaning_not_idempotent :
    cleanTable (cleanTable ⟨["a"], [[some (.int 1)], [none]]⟩) ≠
      cleanTable ⟨["a"], [[some (.int 1)], [none]]⟩ := by
  decide

theorem cleanTable_eq_dedup_of_complete (t : Table) (hwf : t.WF)
    (hc : ∀ r ∈ t.rows, ∀ c ∈ r, c ≠ none) : cleanTable t = t.dedup := by
  have hsub := dedupRows_sublist t.rows
  unfold cleanTable Table.ffill Table.dedup
  simp only
  congr 1
  refine ffillRows_of_complete t.cols.length _ _ (by simp) ?_ ?_
  · exact fun r hr => hwf r (hsub.subset hr)
  · exact fun r hr => hc r (hsub.subset hr)

/-- C4 amended: each cleaning operation is idempotent on its own, namely
duplicate-row removal and forward-fill, and the composed stage satisfies
clean(clean T) = clean T on every well-formed table with no missing values;
the composed stage is not idempotent in general because forward-fill can
create new duplicate rows (see the counterexample). -/
theorem cleaning_ops_idempotent (t : Table) :
    t.dedup.dedup = t.dedup ∧ t.ffill.ffill = t.ffill ∧
      (t.WF → (∀ r ∈ t.rows, ∀ c ∈ r, c ≠ none) →
        cleanTable (cleanTable t) = cleanTable t) := by
  refine ⟨dedup_idem t, ffill_idem t, fun hwf hc => ?_⟩
  have h1 : cleanTable t = t.dedup := cleanTable_eq_dedup_of_complete t hwf hc
  rw [h1]
  have hsub := dedupRows_sublist t.rows
  have h2 : cleanTable t.dedup = t.dedup.dedup := by
    refine cleanTable_eq_dedup_of_complete t.dedup ?_ ?_
    · exact fun r hr => hwf r (hsub.subset hr)
    · exact fun r hr => hc r (hsub.subset hr)
  rw [h2, dedup_idem]

/-- Witness for C4 amended, at a well-formed complete two-row table. -/
theorem cleaning_ops_idempotent_witness :
    (Table.mk ["a"] [[some (.int 1)], [some (.int 2)]]).dedup.dedup =
        (Table.mk ["a"] [[some (.int 1)], [some (.int 2)]]).dedup ∧
      (Table.mk ["a"] [[some (.int 1)], [some (.int 2)]]).ffill.ffill =
        (Table.mk ["a"] [[some (.int 1)], [some (.int 2)]]).ffill ∧
      cleanTable (cleanTable ⟨["a"], [[some (.int 1)], [some (.int 2)]]⟩) =
        cleanTable ⟨["a"], [[some (.int 1)], [some (.int 2)]]⟩ := by
  obtain ⟨h1, h2, h3⟩ := cleaning_ops_idempotent ⟨["a"], [[some (.int 1)], [some (.int 2)]]⟩
  exact ⟨h1, h2, h3 (by decide) (by decide)⟩

/-! ### Cell-level characterization of forward fill -/

theorem getD_eq_getElem {l : List α} {i : Nat} (d : α) (h : i < l.length) :
    l.getD i d = l[i] := by
  rw [List.getD_eq_getElem?_getD, List.getElem?_eq_getElem h]
  rfl

theorem getD_zipWith_fillCell (p r : List Cell) (j : Nat)
    (hp : j < p.length) (hr : j < r.length) :
    (List.zipWith fillCell p r).getD j none =
      fillCell (p.getD j none) (r.getD j none) := by
  rw [getD_eq_getElem none (by rw [List.length_zipWith]; omega),
    List.getElem_zipWith, getD_eq_getElem none hp, getD_eq_getElem none hr]

theorem getD_map_const_none (cs : List String) : ∀ j : Nat,
    (cs.map fun _ => (none : Cell)).getD j none = none := by
  induction cs with
  | nil => intro j; rfl
  | cons c cs ih =>
    intro j
    cases j with
    | zero => rfl
    | succ j => exact ih j

theorem ffillRows_cellAt : ∀ (rs : List (List Cell)) (p : List Cell) (i j : Nat),
    j < p.length → (∀ r ∈ rs, j < r.length) → i < rs.length →
    ((ffillRows p rs).getD i []).getD j none =
      ((rs.take (i + 1)).map fun r => r.getD j none).foldl fillCell (p.getD j none) := by
  intro rs
  induction rs with
  | nil => intro p i j _ _ hi; simp at hi
  | cons r rs ih =>
    intro p i j hp hr hi
    have hjr : j < r.length := hr r (List.mem_cons_self r rs)
    cases i with
    | zero =>
      simp only [ffillRows, List.take_succ_cons, List.take_zero, List.map_cons,
        List.map_nil, List.foldl_cons, List.foldl_nil, List.getD_cons_zero]
      exact getD_zipWith_fillCell p r j hp hjr
    | succ i =>
      have h1 : j < (List.zipWith fillCell p r).length := by
        rw [List.length_zipWith]; omega
      have h2 : ∀ x ∈ rs, j < x.length := fun x hx => hr x (List.mem_cons_of_mem _ hx)
      have h3 : i < rs.length := by simpa using hi
      simp only [ffillRows, List.getD_cons_succ, List.take_succ_cons, List.map_cons,
        List.foldl_cons]
      rw [ih (List.zipWith fillCell p r) i j h1 h2 h3,
        getD_zipWith_fillCell p r j hp hjr]

theorem foldl_fillCell_all_none : ∀ cs : List Cell, (∀ c ∈ cs, c = none) →
    cs.foldl fillCell none = none := by
  intro cs
  induction cs with
  | nil => intro _; rfl
  | cons c cs ih =>
    intro h
    have hc : c = none := h c (List.mem_cons_self c cs)
    simp only [List.foldl_cons, hc]
    exact ih fun x hx => h x (List.mem_cons_of_mem _ hx)

/-! ### Claim C5: forward-fill semantics -/

/-- C5: for every well-formed table, row i and column j, forward-fill leaves a
non-missing value unchanged (in particular the first non-missing occurrence of
a column), replaces a missing value with the most recent non-missing value at
an earlier row of the same column, and leaves a column with no non-missing
entries entirely missing. -/
theorem ffill_cell_spec (t : Table) (hwf : t.WF) (i j : Nat)
    (hi : i < t.rows.length) (hj : j < t.cols.length) :
    cellAt t.ffill i j =
      (match cellAt t i j with
       | some v => some v
       | none => lastFillBefore (colCells t j) i) ∧
    (cellAt t i j ≠ none → cellAt t.ffill i j = cellAt t i j) ∧
    ((∀ k, k < t.rows.length → cellAt t k j = none) → cellAt t.ffill i j = none) := by
  have hrowlen : ∀ r ∈ t.rows, j < r.length := fun r hr => (hwf r hr) ▸ hj
  have hmain : cellAt t.ffill i j =
      (match cellAt t i j with
       | some v => some v
       | none => lastFillBefore (colCells t j) i) := by
    show ((ffillRows (t.cols.map fun _ => none) t.rows).getD i []).getD j none = _
    rw [ffillRows_cellAt t.rows _ i j (by simpa using hj) hrowlen hi,
      getD_map_const_none]
    have htake : t.rows.take (i + 1) = t.rows.take i ++ [t.rows[i]] := by
      rw [List.take_succ, List.getElem?_eq_getElem hi]
      rfl
    rw [htake, List.map_append, List.foldl_append]
    have hcol : (t.rows.take i).map (fun r => r.getD j none) =
        (colCells t j).take i := by
      unfold colCells
      rw [List.map_take]
    have hcell : cellAt t i j = t.rows[i].getD j none := by
      unfold cellAt
      rw [getD_eq_getElem [] hi]
    rw [hcol]
    simp only [List.map_cons, List.map_nil, List.foldl_cons, List.foldl_nil]
    rw [← hcell]
    unfold lastFillBefore
    cases hc : cellAt t i j with
    | some v => rfl
    | none => rfl
  refine ⟨hmain, fun hne => ?_, fun hall => ?_⟩
  · rw [hmain]
    cases hc : cellAt t i j with
    | some v => rfl
    | none => exact absurd hc hne
  · rw [hmain, hall i hi]
    unfold lastFillBefore
    refine foldl_fillCell_all_none _ fun c hc => ?_
    have hc2 := List.take_subset i (colCells t j) hc
    obtain ⟨k, hk, hck⟩ := List.mem_iff_getElem.mp hc2
    have hk2 : k < t.rows.length := by
      simpa [colCells] using hk
    have : (colCells t j)[k] = cellAt t k j := by
      unfold colCells cellAt
      rw [List.getElem_map, getD_eq_getElem [] hk2]
    rw [← hck, this]
    exact hall k hk2

/-- Witness for C5 at the table with rows (1) and (missing), row 1, column 0:
the missing cell receives the value above it. -/
theorem ffill_cell_spec_witness :
    cellAt (Table.ffill ⟨["a"], [[some (.int 1)], [none]]⟩) 1 0 =
      (match cellAt ⟨["a"], [[some (.int 1)], [none]]⟩ 1 0 with
       | some v => some v
       | none => lastFillBefore (colCells ⟨["a"], [[some (.int 1)], [none]]⟩ 0) 1) ∧
    (cellAt ⟨["a"], [[some (.int 1)], [none]]⟩ 1 0 ≠ none →
      cellAt (Table.ffill ⟨["a"], [[some (.int 1)], [none]]⟩) 1 0 =
        cellAt ⟨["a"], [[some (.int 1)], [none]]⟩ 1 0) ∧
    ((∀ k, k < (Table.mk ["a"] [[some (.int 1)], [none]]).rows.length →
        cellAt ⟨["a"], [[some (.int 1)], [none]]⟩ k 0 = none) →
      cellAt (Table.ffill ⟨["a"], [[some (.int 1)], [none]]⟩) 1 0 = none) :=
  ffill_cell_spec ⟨["a"], [[some (.int 1)], [none]]⟩ (by decide) 1 0
    (by decide) (by decide)

/-! ### Cell-level characterization of key normalization -/

theorem getD_set_self (l : List α) (i : Nat) (a d : α) (h : i < l.length) :
    (l.set i a).getD i d = a := by
  rw [getD_eq_getElem d (by simpa using h)]
  exact List.getElem_set_self _

theorem getD_set_ne (l : List α) (i j : Nat) (a d : α) (hne : i ≠ j) :
    (l.set i a).getD j d = l.getD j d := by
  by_cases hj : j < l.length
  · rw [getD_eq_getElem d (by simpa using hj), getD_eq_getElem d hj]
    exact List.getElem_set_ne hne _
  · have hle : l.length ≤ j := Nat.le_of_not_lt hj
    rw [List.getD_eq_getElem?_getD, List.getD_eq_getElem?_getD,
      List.getElem?_eq_none (by simpa using hle), List.getElem?_eq_none hle]

theorem getD_map_of_lt (f : α → β) (l : List α) (i : Nat) (d : β) (d0 : α)
    (h : i < l.length) : (l.map f).getD i d = f (l.getD i d0) := by
  rw [getD_eq_getElem d (by simpa using h), List.getElem_map, getD_eq_getElem d0 h]

theorem normCell_normCell (c : Cell) : normCell (normCell c) = normCell c := rfl

theorem normalizeKeys_cells : ∀ (ks : List String) (t t1 : Table),
    t.WF → t.cols.Nodup → normalizeKeys t ks = .ok t1 →
    t1.cols = t.cols ∧ t1.WF ∧ t1.rows.length = t.rows.length ∧
    ∀ i j, i < t.rows.length → j < t.cols.length →
      cellAt t1 i j = (if t.cols.getD j "" ∈ ks then normCell (cellAt t i j)
                       else cellAt t i j) := by
  intro ks
  induction ks with
  | nil =>
    intro t t1 hwf _ h
    injection h with h
    subst h
    exact ⟨rfl, hwf, rfl, fun i j _ _ => by simp⟩
  | cons c cs ih =>
    intro t t1 hwf hnd h
    rw [normalizeKeys] at h
    cases hci : colIdx t.cols c with
    | none => rw [astypeStrCol, hci] at h; cases h
    | some ic =>
      rw [astypeStrCol, hci] at h
      set tmid : Table :=
        ⟨t.cols, t.rows.map fun r => r.set ic (normCell (r.getD ic none))⟩ with htmid
      have hic : ic < t.cols.length := colIdx_lt_length hci
      have hgic : t.cols.getD ic "" = c := colIdx_getD hci
      have hwfmid : tmid.WF := by
        intro r hr
        obtain ⟨r0, hr0, rfl⟩ := List.mem_map.mp hr
        simp [hwf r0 hr0]
      have hmidlen : tmid.rows.length = t.rows.length := by simp
      have hmidcell : ∀ i j, i < t.rows.length → j < t.cols.length →
          cellAt tmid i j = (if j = ic then normCell (cellAt t i j) else cellAt t i j) := by
        intro i j hi hj
        have hrow : tmid.rows.getD i [] =
            (t.rows.getD i []).set ic (normCell ((t.rows.getD i []).getD ic none)) :=
          getD_map_of_lt _ t.rows i [] [] hi
        show (tmid.rows.getD i []).getD j none = _
        rw [hrow]
        by_cases hji : j = ic
        · subst hji
          have hjlen : j < (t.rows.getD i []).length := by
            rw [getD_eq_getElem [] hi, hwf _ (List.getElem_mem hi)]
            exact hic
          rw [getD_set_self _ _ _ _ hjlen, if_pos rfl]
          rfl
        · rw [getD_set_ne _ _ _ _ _ (fun e => hji e.symm), if_neg hji]
          rfl
      obtain ⟨hc1, hw1, hl1, hcell1⟩ := ih tmid t1 hwfmid (by simpa using hnd) h
      refine ⟨by simpa using hc1, hw1, by simpa [hmidlen] using hl1, ?_⟩
      intro i j hi hj
      have hcell2 := hcell1 i j (by simpa [hmidlen] using hi) (by simpa using hj)
      have hcolsmid : tmid.cols.getD j "" = t.cols.getD j "" := rfl
      rw [hcolsmid] at hcell2
      rw [hcell2, hmidcell i j hi hj]
      by_cases hji : j = ic
      · subst hji
        rw [hgic]
        simp [normCell_normCell]
      · have hne : t.cols.getD j "" ≠ c := by
          intro he
          apply hji
          have h1 : t.cols[j] = t.cols[ic] := by
            rw [← getD_eq_getElem "" hj, ← getD_eq_getElem "" hic, he, hgic]
          exact (List.Nodup.getElem_inj_iff hnd).mp h1
        rw [if_neg hji]
        simp only [List.mem_cons]
        rw [if_congr (or_iff_right hne) rfl rfl]

/-! ### Claim C10: missing key values normalize to the string nan and join -/

/-- The cell of row i at the key column named at position q of the key list
(none when the column is absent). -/
def keyCellOf (t : Table) (ks : List String) (q i : Nat) : Cell :=
  ((colIdx t.cols (ks.getD q "")).map fun a => cellAt t i a).getD none

theorem all_zip_of_getD : ∀ (as bs : List Cell) (P : Cell → Cell → Bool),
    as.length = bs.length →
    (∀ q, q < as.length → P (as.getD q none) (bs.getD q none) = true) →
    ((as.zip bs).all fun x => P x.1 x.2) = true := by
  intro as
  induction as with
  | nil => intro bs P _ _; rfl
  | cons a as ih =>
    intro bs P hlen h
    cases bs with
    | nil => simp at hlen
    | cons b bs =>
      simp only [List.zip_cons_cons, List.all_cons, Bool.and_eq_true]
      refine ⟨h 0 (by simp), ih bs P (by simpa using hlen) ?_⟩
      intro q hq
      exact h (q + 1) (by simpa using Nat.succ_lt_succ hq)

theorem cellMatch_normCell (x y : Cell) :
    cellMatch (normCell x) (normCell y) = true ↔ cellToStr x = cellToStr y := by
  simp [cellMatch, normCell, Val.str.injEq]

theorem keyCells_getD_norm (df t1 : Table) (ks : List String) (i q : Nat)
    (hwf : df.WF) (hnd : df.cols.Nodup) (hok : normalizeKeys df ks = .ok t1)
    (hmemcols : ∀ c ∈ ks, c ∈ df.cols)
    (hi : i < df.rows.length) (hq : q < ks.length) :
    (keyCells t1 ks (t1.rows.getD i [])).getD q none =
      normCell (keyCellOf df ks q i) := by
  obtain ⟨hcols, hwf1, hlen1, hcells⟩ := normalizeKeys_cells ks df t1 hwf hnd hok
  have hmem : ks.getD q "" ∈ ks := by
    rw [getD_eq_getElem "" hq]
    exact List.getElem_mem hq
  obtain ⟨a, ha⟩ := colIdx_of_mem (hmemcols _ hmem)
  have halt : a < df.cols.length := colIdx_lt_length ha
  have hga : df.cols.getD a "" = ks.getD q "" := colIdx_getD ha
  unfold keyCells
  rw [getD_map_of_lt _ ks q none "" hq]
  show (match colIdx t1.cols (ks.getD q "") with
        | some b => (t1.rows.getD i []).getD b none
        | none => none) = _
  rw [hcols, ha]
  show cellAt t1 i a = _
  rw [hcells i a hi halt, hga, if_pos hmem]
  unfold keyCellOf
  rw [ha]
  rfl

/-- C10: the key-normalization step maps a missing value in a key column to
the literal canonical string nan; consequently a flow row and a ground-truth
row that both have a missing value in a corresponding key field, and whose
remaining key fields agree in normalized string form, compare equal on the
composite key and are joined into the merged output rather than excluded. -/
theorem missing_keys_join (dfM dfG : Table) (lk rk : List String) (i j p : Nat)
    (hwfM : dfM.WF) (hwfG : dfG.WF)
    (hndM : dfM.cols.Nodup) (hndG : dfG.cols.Nodup)
    (hkk : lk.length = rk.length)
    (hM : ∀ c ∈ lk, c ∈ dfM.cols) (hG : ∀ c ∈ rk, c ∈ dfG.cols)
    (hi : i < dfM.rows.length) (hj : j < dfG.rows.length)
    (hp : p < lk.length)
    (hmiss1 : keyCellOf dfM lk p i = none)
    (hmiss2 : keyCellOf dfG rk p j = none)
    (hrest : ∀ q, q < lk.length → q ≠ p →
      cellToStr (keyCellOf dfM lk q i) = cellToStr (keyCellOf dfG rk q j)) :
    cellToStr (none : Cell) = "nan" ∧
    ∃ nm ng, normalizeKeys dfM lk = .ok nm ∧ normalizeKeys dfG rk = .ok ng ∧
      normalizeAndMerge dfM dfG lk rk = .ok (mergeInner nm ng lk rk) ∧
      keyMatch nm ng lk rk (nm.rows.getD i []) (ng.rows.getD j []) = true ∧
      (nm.rows.getD i [] ++ ng.rows.getD j []) ∈ (mergeInner nm ng lk rk).rows := by
  obtain ⟨nm, hnm, hcM, hlM⟩ := normalizeKeys_ok_of_all_mem lk dfM hM
  obtain ⟨ng, hng, hcG, hlG⟩ := normalizeKeys_ok_of_all_mem rk dfG hG
  have hky : keyMatch nm ng lk rk (nm.rows.getD i []) (ng.rows.getD j []) = true := by
    unfold keyMatch
    refine all_zip_of_getD _ _ _ (by simp [keyCells, hkk]) ?_
    intro q hq
    have hq2 : q < lk.length := by simpa [keyCells] using hq
    rw [keyCells_getD_norm dfM nm lk i q hwfM hndM hnm hM hi hq2,
      keyCells_getD_norm dfG ng rk j q hwfG hndG hng hG hj (hkk ▸ hq2)]
    refine (cellMatch_normCell _ _).mpr ?_
    by_cases hqp : q = p
    · subst hqp
      rw [hmiss1, hmiss2]
    · exact hrest q hq2 hqp
  have hrl : nm.rows.getD i [] ∈ nm.rows := by
    rw [getD_eq_getElem [] (by rw [hlM]; exact hi)]
    exact List.getElem_mem _
  have hrr : ng.rows.getD j [] ∈ ng.rows := by
    rw [getD_eq_getElem [] (by rw [hlG]; exact hj)]
    exact List.getElem_mem _
  have hmm : (nm.rows.getD i [] ++ ng.rows.getD j []) ∈ (mergeInner nm ng lk rk).rows := by
    show _ ∈ catLists (nm.rows.map _)
    exact mem_catLists_map _ hrl
      (List.mem_map_of_mem _ (List.mem_filter.mpr ⟨hrr, hky⟩))
  refine ⟨rfl, nm, ng, hnm, hng, ?_, hky, hmm⟩
  unfold normalizeAndMerge
  rw [hnm, hng]

/-- Witness for C10: one-row tables whose single key cells are both missing
join into the merged output through the shared normalized string nan. -/
theorem missing_keys_join_witness :
    cellToStr (none : Cell) = "nan" ∧
    ∃ nm ng,
      normalizeKeys ⟨["k", "u"], [[none, some (.str "x")]]⟩ ["k"] = .ok nm ∧
      normalizeKeys ⟨["K", "w"], [[none, some (.str "y")]]⟩ ["K"] = .ok ng ∧
      normalizeAndMerge ⟨["k", "u"], [[none, some (.str "x")]]⟩
        ⟨["K", "w"], [[none, some (.str "y")]]⟩ ["k"] ["K"] =
          .ok (mergeInner nm ng ["k"] ["K"]) ∧
      keyMatch nm ng ["k"] ["K"] (nm.rows.getD 0 []) (ng.rows.getD 0 []) = true ∧
      (nm.rows.getD 0 [] ++ ng.rows.getD 0 []) ∈ (mergeInner nm ng ["k"] ["K"]).rows :=
  missing_keys_join ⟨["k", "u"], [[none, some (.str "x")]]⟩
    ⟨["K", "w"], [[none, some (.str "y")]]⟩ ["k"] ["K"] 0 0 0
    (by decide) (by decide) (by decide) (by decide) (by decide)
    (by decide) (by decide) (by decide) (by decide) (by decide)
    (by decide) (by decide)
    (fun q hq hne => absurd (Nat.lt_one_iff.mp hq) hne)

/-! ### The Training and Evaluation Engine (modules/modeling.py) -/

/-- The required feature and target columns (modeling.py line 22). -/
def requiredColumns : List String := ["feature1", "feature2", "feature3", "label"]

/-- The feature columns selected as X (line 29). -/
def featureColumns : List String := ["feature1", "feature2", "feature3"]

/-- One sample: the feature cells of a row paired with its label cell. -/
abbrev Sample := List Cell × Cell

/-- X and y of modeling.py lines 29 to 30, zipped row for row. -/
def pipelineSamples (df : Table) : List Sample :=
  df.rows.map fun r =>
    (featureColumns.map fun c =>
       match colIdx df.cols c with
       | some a => r.getD a none
       | none => none,
     match colIdx df.cols "label" with
     | some a => r.getD a none
     | none => none)

/-- sklearn train_test_split(X, y, test_size=0.2, random_state=42) on line 33.
The seeded shuffle is passed in explicitly as perm, a list of row indices;
sklearn puts the first ceil(n / 5) shuffled indices in the test set and the
remaining ones in the training set, so the pair returned here is
(training part, test part). -/
def trainTestSplit (samples : List Sample) (perm : List Nat) :
    List Sample × List Sample :=
  let nTest := (samples.length + 4) / 5
  let shuffled := perm.map fun a => samples.getD a ([], none)
  (shuffled.drop nTest, shuffled.take nTest)

/-- sklearn accuracy_score (line 43): the fraction of positions at which
prediction equals truth. -/
def accuracy_score (yTrue yPred : List Cell) : Rat :=
  (((yTrue.zip yPred).countP fun x => decide (x.1 = x.2)) : Rat) /
    (yTrue.length : Rat)

/-- What train_predictive_model computes and returns: the fitted model, the
hold-out accuracy, the data handed to cross_val_score, the per-fold scores
and the mean reported for them. -/
structure TrainResult where
  model : List Cell → Cell
  accuracy : Rat
  cvData : List Sample
  cvScores : List Rat
  cvMean : Rat

/-- modeling.py lines 22 to 57. The sklearn estimator is abstracted by fit,
mapping a training set to a predictor, and cross_val_score by cvScore, mapping
the data it receives and a fold count to the per-fold scores; perm is the
seeded shuffle used by train_test_split. The required-column loop (lines 23 to
26) logs the first missing column and returns None, modelled as an error
carrying that column name. On line 53 cross_val_score receives X and y, the
full extracted dataset, and line 55 reports the numpy mean of its scores. -/
def train_predictive_model (fit : List Sample → (List Cell → Cell))
    (cvScore : List Sample → Nat → List Rat) (perm : List Nat)
    (df : Table) : Except String TrainResult :=
  match requiredColumns.find? (fun c => !(decide (c ∈ df.cols))) with
  | some c => .error c
  | none =>
    let samples := pipelineSamples df
    let split := trainTestSplit samples perm
    let model := fit split.1
    let preds := split.2.map fun s => model s.1
    let acc := accuracy_score (split.2.map Prod.snd) preds
    let scores := cvScore samples 5
    .ok ⟨model, acc, samples, scores, scores.sum / (scores.length : Rat)⟩

/-- The cvData of a training outcome, the empty list on the error path. -/
def cvDataOf : Except String TrainResult → List Sample
  | .ok r => r.cvData
  | .error _ => []

/-! ### Claim C8: missing required column stops the engine before the fit -/

/-- C8: when a required feature or target column is absent, the engine stops
at the first missing column of the required list: it returns no model
artifact and surfaces an error naming that column, so no partial model is
produced and the fit is never reached. -/
theorem training_missing_column (fit : List Sample → (List Cell → Cell))
    (cvScore : List Sample → Nat → List Rat) (perm : List Nat)
    (df : Table) (c : String)
    (h : requiredColumns.find? (fun c => !(decide (c ∈ df.cols))) = some c) :
    train_predictive_model fit cvScore perm df = .error c ∧
      c ∈ requiredColumns ∧ c ∉ df.cols := by
  refine ⟨?_, List.mem_of_find?_eq_some h, ?_⟩
  · unfold train_predictive_model
    rw [h]
  · have h2 := List.find?_some h
    simpa using h2

/-- Witness for C8: a table lacking feature2 makes the engine fail naming
exactly that column. -/
theorem training_missing_column_witness :
    train_predictive_model (fun _ _ => (none : Cell)) (fun _ k => List.replicate k 1)
        [] ⟨["feature1", "feature3", "label"], []⟩ = .error "feature2" ∧
      "feature2" ∈ requiredColumns ∧
      "feature2" ∉ (Table.mk ["feature1", "feature3", "label"] []).cols :=
  training_missing_column _ _ _ _ _ (by decide)

/-! ### Claim C6: cross-validation data and reported mean -/

/-- A five-row dataset with all required columns, used to exhibit the
cross-validation data flow. -/
def dfFive : Table :=
  ⟨["feature1", "feature2", "feature3", "label"],
   [[some (.int 1), some (.int 0), some (.int 0), some (.int 0)],
    [some (.int 2), some (.int 0), some (.int 0), some (.int 0)],
    [some (.int 3), some (.int 0), some (.int 0), some (.int 1)],
    [some (.int 4), some (.int 0), some (.int 0), some (.int 1)],
    [some (.int 5), some (.int 0), some (.int 0), some (.int 1)]]⟩

/-- C6 counterexample: it is false that cross-validation runs on the training
data alone. On the concrete five-row dataset, cross_val_score receives the
full five-row extraction while the training partition holds only four rows,
whatever the shuffle, so the two differ. -/
theorem cross_validation_not_on_training_alone :
    ¬ ∀ (fit : List Sample → (List Cell → Cell))
        (cvScore : List Sample → Nat → List Rat) (perm : List Nat) (df : Table),
        cvDataOf (train_predictive_model fit cvScore perm df) =
          (trainTestSplit (pipelineSamples df) perm).1 := by
  intro h
  have h2 := h (fun _ _ => none) (fun _ k => List.replicate k 1) [0, 1, 2, 3, 4] dfFive
  exact absurd h2 (by decide)

/-- C6 amended: the engine runs k-fold cross-validation with the hard-coded
default k = 5 (so k is at least 2), but on the full extracted feature matrix
and label vector, including the rows later held out for point evaluation, not
on the training data alone; it reports the list of per-fold scores, and the
reported mean equals the arithmetic mean (sum divided by count) of those
per-fold scores. -/
theorem cross_validation_mean (fit : List Sample → (List Cell → Cell))
    (cvScore : List Sample → Nat → List Rat) (perm : List Nat) (df : Table)
    (hc : requiredColumns.find? (fun c => !(decide (c ∈ df.cols))) = none)
    (hlen : (cvScore (pipelineSamples df) 5).length = 5) :
    ∃ r, train_predictive_model fit cvScore perm df = .ok r ∧
      r.cvData = pipelineSamples df ∧
      r.cvScores = cvScore (pipelineSamples df) 5 ∧
      r.cvScores.length = 5 ∧
      r.cvMean = r.cvScores.sum / (r.cvScores.length : Rat) ∧
      (2 : Nat) ≤ 5 := by
  unfold train_predictive_model
  rw [hc]
  exact ⟨_, rfl, rfl, rfl, hlen, rfl, by omega⟩

/-- Witness for C6 amended at the five-row dataset with a constant per-fold
score of one. -/
theorem cross_validation_mean_witness :
    ∃ r, train_predictive_model (fun _ _ => (none : Cell))
        (fun _ k => List.replicate k 1) [0, 1, 2, 3, 4] dfFive = .ok r ∧
      r.cvData = pipelineSamples dfFive ∧
      r.cvScores = (fun (_ : List Sample) (k : Nat) => List.replicate k (1 : Rat))
        (pipelineSamples dfFive) 5 ∧
      r.cvScores.length = 5 ∧
      r.cvMean = r.cvScores.sum / (r.cvScores.length : Rat) ∧
      (2 : Nat) ≤ 5 :=
  cross_validation_mean _ _ _ _ (by decide) (by decide)

/-! ### Claim C7: a single-class label vector -/

/-- A five-row dataset whose label column is the single constant class 0. -/
def dfSingle : Table :=
  ⟨["feature1", "feature2", "feature3", "label"],
   [[some (.int 1), some (.int 0), some (.int 0), some (.int 0)],
    [some (.int 2), some (.int 0), some (.int 0), some (.int 0)],
    [some (.int 3), some (.int 0), some (.int 0), some (.int 0)],
    [some (.int 4), some (.int 0), some (.int 0), some (.int 0)],
    [some (.int 5), some (.int 0), some (.int 0), some (.int 0)]]⟩

/-- A predictor with the observed-classes property of a fitted
RandomForestClassifier: it answers a label seen in its training set (here the
first one). sklearn random forests accept a single-class label vector and can
only ever predict classes observed at fit time. -/
def constClassFit (train : List Sample) (_ : List Cell) : Cell :=
  (train.map Prod.snd).getD 0 none

/-- The fitted model of constClassFit answers a label from its nonempty
training set. -/
theorem constClassFit_mem (tr : List Sample) (h : tr ≠ []) :
    ∀ x, constClassFit tr x ∈ tr.map Prod.snd := by
  intro x
  unfold constClassFit
  have hlen : 0 < (tr.map Prod.snd).length := by
    simpa using List.length_pos.mpr h
  rw [getD_eq_getElem none hlen]
  exact List.getElem_mem _

theorem single_class_ok_accuracy
    (fit : List Sample → (List Cell → Cell))
    (cvScore : List Sample → Nat → List Rat) (perm : List Nat) (df : Table)
    (v : Val)
    (hc : requiredColumns.find? (fun c => !(decide (c ∈ df.cols))) = none)
    (hlab : ∀ s ∈ pipelineSamples df, s.2 = some v)
    (hn : 2 ≤ df.rows.length)
    (hpl : perm.length = df.rows.length)
    (hpi : ∀ a ∈ perm, a < df.rows.length)
    (hfit : ∀ x, fit (trainTestSplit (pipelineSamples df) perm).1 x ∈
      (trainTestSplit (pipelineSamples df) perm).1.map Prod.snd) :
    ∃ r, train_predictive_model fit cvScore perm df = .ok r ∧
      r.accuracy = 1 := by
  have hslen : (pipelineSamples df).length = df.rows.length := by
    unfold pipelineSamples
    rw [List.length_map]
  have hshuffmem : ∀ s ∈ perm.map (fun a => (pipelineSamples df).getD a ([], none)),
      s ∈ pipelineSamples df := by
    intro s hs
    obtain ⟨a, ha, rfl⟩ := List.mem_map.mp hs
    have halt : a < (pipelineSamples df).length := by
      rw [hslen]
      exact hpi a ha
    rw [getD_eq_getElem ([], none) halt]
    exact List.getElem_mem _
  have htest : (trainTestSplit (pipelineSamples df) perm).2 =
      (perm.map fun a => (pipelineSamples df).getD a ([], none)).take
        (((pipelineSamples df).length + 4) / 5) := rfl
  have htrain : (trainTestSplit (pipelineSamples df) perm).1 =
      (perm.map fun a => (pipelineSamples df).getD a ([], none)).drop
        (((pipelineSamples df).length + 4) / 5) := rfl
  have htestlab : ∀ s ∈ (trainTestSplit (pipelineSamples df) perm).2, s.2 = some v := by
    intro s hs
    rw [htest] at hs
    exact hlab s (hshuffmem s (List.take_subset _ _ hs))
  have htrainlab : ∀ s ∈ (trainTestSplit (pipelineSamples df) perm).1, s.2 = some v := by
    intro s hs
    rw [htrain] at hs
    exact hlab s (hshuffmem s (List.drop_subset _ _ hs))
  have hpred : ∀ x, fit (trainTestSplit (pipelineSamples df) perm).1 x = some v := by
    intro x
    obtain ⟨s, hs, he⟩ := List.mem_map.mp (hfit x)
    rw [← he]
    exact htrainlab s hs
  have htestlen : (trainTestSplit (pipelineSamples df) perm).2.length =
      ((pipelineSamples df).length + 4) / 5 := by
    rw [htest, List.length_take, List.length_map, hpl, ← hslen]
    omega
  have htestpos : (trainTestSplit (pipelineSamples df) perm).2.length ≠ 0 := by
    rw [htestlen, hslen]
    omega
  have hacc : accuracy_score
      ((trainTestSplit (pipelineSamples df) perm).2.map Prod.snd)
      ((trainTestSplit (pipelineSamples df) perm).2.map fun s =>
        fit (trainTestSplit (pipelineSamples df) perm).1 s.1) = 1 := by
    unfold accuracy_score
    have hzip : ∀ x ∈ ((trainTestSplit (pipelineSamples df) perm).2.map Prod.snd).zip
        ((trainTestSplit (pipelineSamples df) perm).2.map fun s =>
          fit (trainTestSplit (pipelineSamples df) perm).1 s.1),
        (fun x : Cell × Cell => decide (x.1 = x.2)) x = true := by
      intro x hx
      obtain ⟨a, b⟩ := x
      obtain ⟨h1, h2⟩ := List.of_mem_zip hx
      obtain ⟨s1, hs1, he1⟩ := List.mem_map.mp h1
      obtain ⟨s2, hs2, he2⟩ := List.mem_map.mp h2
      simp only
      rw [← he1, ← he2, htestlab s1 hs1, hpred s2.1]
      simp
    rw [List.countP_eq_length.mpr hzip, List.length_zip, List.length_map,
      List.length_map, Nat.min_self]
    exact div_self (Nat.cast_ne_zero.mpr htestpos)
  refine ⟨⟨fit (trainTestSplit (pipelineSamples df) perm).1,
    accuracy_score ((trainTestSplit (pipelineSamples df) perm).2.map Prod.snd)
      ((trainTestSplit (pipelineSamples df) perm).2.map fun s =>
        fit (trainTestSplit (pipelineSamples df) perm).1 s.1),
    pipelineSamples df, cvScore (pipelineSamples df) 5,
    (cvScore (pipelineSamples df) 5).sum /
      ((cvScore (pipelineSamples df) 5).length : Rat)⟩, ?_, hacc⟩
  unfold train_predictive_model
  rw [hc]

/-- C7 counterexample: on a concrete dataset whose label vector is the single
constant class 0, the engine raises nothing and reports hold-out accuracy 1:
training succeeds with a silently perfect score, and no ModelingError exists
anywhere in the code. -/
theorem single_class_silently_perfect :
    ∃ r, train_predictive_model constClassFit (fun _ k => List.replicate k 1)
        [0, 1, 2, 3, 4] dfSingle = .ok r ∧ r.accuracy = 1 :=
  single_class_ok_accuracy constClassFit (fun _ k => List.replicate k 1)
    [0, 1, 2, 3, 4] dfSingle (.int 0) (by decide) (by decide) (by decide)
    (by decide) (by decide) (constClassFit_mem _ (by decide))

/-- C7 amended: fitting on a label vector with a single constant class does
not raise a ModelingError (none exists in the code): for every classifier
whose fitted model predicts only labels observed in its nonempty training
set, as a random forest does, the engine returns a trained model and reports
hold-out accuracy 1, a silently perfect score. -/
theorem single_class_trains_and_scores
    (fit : List Sample → (List Cell → Cell))
    (cvScore : List Sample → Nat → List Rat) (perm : List Nat) (df : Table)
    (v : Val)
    (hc : requiredColumns.find? (fun c => !(decide (c ∈ df.cols))) = none)
    (hlab : ∀ s ∈ pipelineSamples df, s.2 = some v)
    (hn : 2 ≤ df.rows.length)
    (hpl : perm.length = df.rows.length)
    (hpi : ∀ a ∈ perm, a < df.rows.length)
    (hfit : ∀ x, fit (trainTestSplit (pipelineSamples df) perm).1 x ∈
      (trainTestSplit (pipelineSamples df) perm).1.map Prod.snd) :
    ∃ r, train_predictive_model fit cvScore perm df = .ok r ∧
      r.accuracy = 1 :=
  single_class_ok_accuracy fit cvScore perm df v hc hlab hn hpl hpi hfit

/-- Witness for C7 amended: the same concrete single-class dataset, through
the claim theorem itself. -/
theorem single_class_trains_and_scores_witness :
    ∃ r, train_predictive_model constClassFit (fun _ k => List.replicate k 1)
        [0, 1, 2, 3, 4] dfSingle = .ok r ∧ r.accuracy = 1 :=
  single_class_trains_and_scores constClassFit (fun _ k => List.replicate k 1)
    [0, 1, 2, 3, 4] dfSingle (.int 0) (by decide) (by decide) (by decide)
    (by decide) (by decide) (constClassFit_mem _ (by decide))

/-! ### Claim C9: load_and_merge_data error paths (data_processing.py) -/

/-- A diagnostic logged by load_and_merge_data before it returns the empty
DataFrame, carrying the file description or column name from the log call. -/
inductive Diag where
  | fileNotFound (desc : String)
  | readFailure (what : String)
  | missingColumn (name : String)
deriving DecidableEq, Repr

/-- What a call to load_and_merge_data does: return a DataFrame together with
the diagnostic that was logged, if any, or raise an uncaught KeyError naming
a column (from the astype loop when a merge-key column is absent). -/
inductive LoadOutcome where
  | returned (t : Table) (diag : Option Diag)
  | raised (col : String)
deriving Repr

/-- load_and_merge_data (data_processing.py lines 6 to 81). Each file
argument is none when the file does not exist on disk, some (.error ()) when
pandas raises while reading it, and some (.ok data) when it parses; the main
file parses to raw unnamed rows because it is read with header=None and named
by the Name column of the features file. The existence of all three files is
checked first, in order; then the features file is parsed and its Name column
extracted; then the main and ground-truth tables are read, the key columns
normalized, the tables merged, and the result cleaned. -/
def load_and_merge_data (mainFile : Option (Except Unit (List (List Cell))))
    (gtFile featFile : Option (Except Unit Table)) : LoadOutcome :=
  match mainFile, gtFile, featFile with
  | none, _, _ => .returned emptyTable (some (.fileNotFound "Main data file"))
  | some _, none, _ => .returned emptyTable (some (.fileNotFound "Ground truth file"))
  | some _, some _, none => .returned emptyTable (some (.fileNotFound "Features file"))
  | some mainE, some gtE, some featE =>
    match featE with
    | .error _ => .returned emptyTable (some (.readFailure "features file"))
    | .ok featuresDf =>
      match colIdx featuresDf.cols "Name" with
      | none => .returned emptyTable (some (.missingColumn "Name"))
      | some a =>
        let unswColumns := featuresDf.rows.map fun r => cellToStr (r.getD a none)
        match mainE with
        | .error _ => .returned emptyTable (some (.readFailure "main dataset"))
        | .ok mainRows =>
          match gtE with
          | .error _ => .returned emptyTable (some (.readFailure "ground truth data"))
          | .ok dfGt =>
            match normalizeAndMerge ⟨unswColumns, mainRows⟩ dfGt
                mergeColumnsMain mergeColumnsGt with
            | .error c => .raised c
            | .ok merged => .returned (cleanTable merged) none

/-- C9: when an input file is missing, the schema descriptor cannot be
parsed, or the descriptor lacks the required Name column, load_and_merge_data
aborts: it returns the empty DataFrame together with the logged diagnostic
that identifies the offending file or column — the description of the first
missing file in the order the code checks them, the features file when its
read fails, and the Name column when the descriptor lacks it — never a
partially merged table disguised as success. -/
theorem load_error_paths (mainFile : Option (Except Unit (List (List Cell))))
    (gtFile featFile : Option (Except Unit Table)) :
    (mainFile = none →
      load_and_merge_data mainFile gtFile featFile =
        .returned emptyTable (some (.fileNotFound "Main data file"))) ∧
    (mainFile ≠ none → gtFile = none →
      load_and_merge_data mainFile gtFile featFile =
        .returned emptyTable (some (.fileNotFound "Ground truth file"))) ∧
    (mainFile ≠ none → gtFile ≠ none → featFile = none →
      load_and_merge_data mainFile gtFile featFile =
        .returned emptyTable (some (.fileNotFound "Features file"))) ∧
    (mainFile ≠ none → gtFile ≠ none → featFile = some (.error ()) →
      load_and_merge_data mainFile gtFile featFile =
        .returned emptyTable (some (.readFailure "features file"))) ∧
    (∀ ft, mainFile ≠ none → gtFile ≠ none → featFile = some (.ok ft) →
      colIdx ft.cols "Name" = none →
      load_and_merge_data mainFile gtFile featFile =
        .returned emptyTable (some (.missingColumn "Name"))) := by
  refine ⟨?_, ?_, ?_, ?_, ?_⟩
  · intro h1
    subst h1
    rfl
  · intro h1 h2
    subst h2
    cases mainFile with
    | none => exact absurd rfl h1
    | some mE => rfl
  · intro h1 h2 h3
    subst h3
    cases mainFile with
    | none => exact absurd rfl h1
    | some mE =>
      cases gtFile with
      | none => exact absurd rfl h2
      | some gE => rfl
  · intro h1 h2 h3
    subst h3
    cases mainFile with
    | none => exact absurd rfl h1
    | some mE =>
      cases gtFile with
      | none => exact absurd rfl h2
      | some gE => rfl
  · intro ft h1 h2 h3 h4
    subst h3
    cases mainFile with
    | none => exact absurd rfl h1
    | some mE =>
      cases gtFile with
      | none => exact absurd rfl h2
      | some gE =>
        simp only [load_and_merge_data]
        rw [h4]

/-- Witness for C9: the main data file is absent, and the run aborts with the
empty result and the diagnostic naming exactly that file. -/
theorem load_error_paths_witness :
    load_and_merge_data none (some (.ok ⟨["x"], []⟩)) (some (.ok ⟨["No."], []⟩)) =
      .returned emptyTable (some (.fileNotFound "Main data file")) :=
  (load_error_paths none (some (.ok ⟨["x"], []⟩)) (some (.ok ⟨["No."], []⟩))).1 rfl
